import Mathlib

/-!
Verification of the availability-suggestion and poll-resolution engine of the
meeting-scheduler backend.  The definitions below are shallow embeddings of the
Python functions in `backend/main.py` and `backend/app/services.py`: datetimes
become `Int` timestamps, lists stay lists, fallible service calls return
`Except String`.  Each numbered theorem settles one claim about the code.
-/

/-! ## Interval merging (`_merge_intervals`, backend/main.py lines 58-68)

Python represents a busy interval as a `(start, end)` tuple of datetimes; we use
`Int × Int`.  `sorted(intervals, key=lambda x: x[0])` is a stable sort on the
first component, which `List.mergeSort` reproduces.  The fold mutating
`merged[-1]` in place is expressed as recursion carrying the current interval.
-/

def sortIntervals (intervals : List (Int × Int)) : List (Int × Int) :=
  intervals.mergeSort (fun a b => decide (a.1 ≤ b.1))

def mergeFold (current : Int × Int) : List (Int × Int) → List (Int × Int)
  | [] => [current]
  | (s, e) :: rest =>
    if s ≤ current.2 then mergeFold (current.1, max current.2 e) rest
    else current :: mergeFold (s, e) rest

def merge_intervals (intervals : List (Int × Int)) : List (Int × Int) :=
  match sortIntervals intervals with
  | [] => []
  | first :: rest => mergeFold first rest

/-- Invariant of the merging fold: on a start-sorted, well-formed input the
output is strictly ordered with gaps, well-formed, no longer than the input,
and every output interval starts no earlier than the current one. -/
theorem mergeFold_spec (l : List (Int × Int)) :
    ∀ current : Int × Int,
      List.Pairwise (fun a b : Int × Int => a.1 ≤ b.1) (current :: l) →
      (∀ p ∈ current :: l, p.1 < p.2) →
      List.Pairwise (fun a b : Int × Int => a.1 < b.1 ∧ a.2 < b.1) (mergeFold current l)
      ∧ (∀ y ∈ mergeFold current l, y.1 < y.2)
      ∧ (mergeFold current l).length ≤ l.length + 1
      ∧ (∀ y ∈ mergeFold current l, current.1 ≤ y.1) := by
  induction l with
  | nil =>
    intro current _ hwf
    refine ⟨List.pairwise_singleton _ _, ?_, by simp [mergeFold], ?_⟩
    · intro y hy
      simp only [mergeFold, List.mem_singleton] at hy
      exact hy ▸ hwf current (by simp)
    · intro y hy
      simp only [mergeFold, List.mem_singleton] at hy
      exact le_of_eq (hy ▸ rfl)
  | cons head rest ih =>
    intro current hsorted hwf
    obtain ⟨s, e⟩ := head
    rw [List.pairwise_cons] at hsorted
    obtain ⟨hcur_le, hrest_sorted⟩ := hsorted
    by_cases hmerge : s ≤ current.2
    · -- merged: extend the current interval's end
      have hsorted' : List.Pairwise (fun a b : Int × Int => a.1 ≤ b.1)
          ((current.1, max current.2 e) :: rest) := by
        rw [List.pairwise_cons]
        refine ⟨?_, (List.pairwise_cons.mp hrest_sorted).2⟩
        intro b hb
        exact hcur_le b (List.mem_cons_of_mem _ hb)
      have hwf' : ∀ p ∈ (current.1, max current.2 e) :: rest, p.1 < p.2 := by
        intro p hp
        rcases List.mem_cons.mp hp with h | h
        · subst h
          exact lt_of_lt_of_le (hwf current (by simp)) (le_max_left _ _)
        · exact hwf p (by simp [h])
      have := ih (current.1, max current.2 e) hsorted' hwf'
      simp only [mergeFold, if_pos hmerge]
      exact ⟨this.1, this.2.1, Nat.le_succ_of_le this.2.2.1, this.2.2.2⟩
    · -- separated: keep `current` and restart from (s, e)
      have hs_lt : current.2 < s := lt_of_not_le hmerge
      have hsorted' : List.Pairwise (fun a b : Int × Int => a.1 ≤ b.1) ((s, e) :: rest) :=
        hrest_sorted
      have hwf' : ∀ p ∈ (s, e) :: rest, p.1 < p.2 := by
        intro p hp
        exact hwf p (List.mem_cons_of_mem _ hp)
      obtain ⟨hpw, hwfo, hlen, hstarts⟩ := ih (s, e) hsorted' hwf'
      simp only [mergeFold, if_neg hmerge]
      have hcur_wf : current.1 < current.2 := hwf current (by simp)
      refine ⟨?_, ?_, ?_, ?_⟩
      · rw [List.pairwise_cons]
        refine ⟨?_, hpw⟩
        intro y hy
        have hsy : s ≤ y.1 := by simpa using hstarts y hy
        exact ⟨lt_of_lt_of_le (lt_trans hcur_wf hs_lt) hsy,
               lt_of_lt_of_le hs_lt hsy⟩
      · intro y hy
        rcases List.mem_cons.mp hy with h | h
        · exact h ▸ hcur_wf
        · exact hwfo y h
      · simpa using Nat.succ_le_succ hlen
      · intro y hy
        rcases List.mem_cons.mp hy with h | h
        · exact le_of_eq (h ▸ rfl)
        · have hsy : s ≤ y.1 := by simpa using hstarts y h
          exact le_of_lt (lt_of_lt_of_le (lt_trans hcur_wf hs_lt) hsy)

/-- Claim C7: on well-formed intervals (`end > start`), `_merge_intervals`
returns a list sorted by start whose intervals are pairwise non-overlapping
(each ends strictly before the next starts, so touching inputs were merged),
with at most as many intervals as the input; empty input yields empty output. -/
theorem merge_intervals_spec (l : List (Int × Int)) (hwf : ∀ p ∈ l, p.1 < p.2) :
    List.Pairwise (fun a b : Int × Int => a.1 < b.1 ∧ a.2 < b.1) (merge_intervals l)
    ∧ (merge_intervals l).length ≤ l.length
    ∧ merge_intervals ([] : List (Int × Int)) = [] := by
  have hperm := List.mergeSort_perm l (fun a b => decide (a.1 ≤ b.1))
  have hsorted : List.Pairwise (fun a b : Int × Int => a.1 ≤ b.1) (sortIntervals l) := by
    have h := @List.sorted_mergeSort (Int × Int)
      (fun a b : Int × Int => decide (a.1 ≤ b.1))
      (fun a b c hab hbc => by
        simp only [decide_eq_true_eq] at *
        omega)
      (fun a b => by
        simp only [Bool.or_eq_true, decide_eq_true_eq]
        omega)
      l
    exact h.imp (fun hab => by simpa using hab)
  have hwf_sorted : ∀ p ∈ sortIntervals l, p.1 < p.2 := by
    intro p hp
    exact hwf p (hperm.mem_iff.mp hp)
  have hlen_sorted : (sortIntervals l).length = l.length := hperm.length_eq
  refine ?_
  unfold merge_intervals
  cases hs : sortIntervals l with
  | nil => simp [merge_intervals, sortIntervals]
  | cons first rest =>
    rw [hs] at hsorted hwf_sorted hlen_sorted
    obtain ⟨hpw, _, hlen, _⟩ := mergeFold_spec rest first hsorted hwf_sorted
    refine ⟨hpw, ?_, by simp [merge_intervals, sortIntervals]⟩
    calc (mergeFold first rest).length ≤ rest.length + 1 := hlen
    _ = l.length := by simp at hlen_sorted; omega

/-- Witness for C7 at a concrete input list. -/
theorem merge_intervals_spec_witness :
    (∀ p ∈ [((3 : Int), (5 : Int)), (1, 2), (4, 6)], p.1 < p.2)
    ∧ (List.Pairwise (fun a b : Int × Int => a.1 < b.1 ∧ a.2 < b.1)
        (merge_intervals [(3, 5), (1, 2), (4, 6)])
      ∧ (merge_intervals [((3 : Int), (5 : Int)), (1, 2), (4, 6)]).length ≤ 3
      ∧ merge_intervals ([] : List (Int × Int)) = []) :=
  ⟨by decide, by simpa using merge_intervals_spec [(3, 5), (1, 2), (4, 6)] (by decide)⟩

/-! ## Slot generation (`_generate_suggestions`, backend/main.py lines 74-98)

A suggestion dict `{"start": s, "end": s + duration}` becomes a `Slot`.  The
Python function walks the merged busy timeline with a cursor, emitting
fixed-duration slots every `increment`, capped at `MAX_SUGGESTION_POOL`
candidates (the `max_suggestions` request field is accepted but unused by the
generator itself).  The two `while` loops append one slot per iteration, so
recursion is well-founded on the remaining pool capacity.
-/

def MAX_SUGGESTION_POOL : Nat := 96

structure Slot where
  start : Int
  stop : Int
deriving DecidableEq, Repr


/-- Inner `while` of the busy-interval loop: emit slots before one busy block.
`bound = min(busy.start, window_end)`.  Returns the suggestion list and whether
the pool cap triggered the early `return`. -/
def busySegmentLoop (duration increment bound : Int) (slot_start : Int)
    (suggestions : List Slot) : List Slot × Bool :=
  if slot_start + duration ≤ bound then
    if MAX_SUGGESTION_POOL ≤ (suggestions ++ [Slot.mk slot_start (slot_start + duration)]).length then
      (suggestions ++ [Slot.mk slot_start (slot_start + duration)], true)
    else
      busySegmentLoop duration increment bound (slot_start + increment)
        (suggestions ++ [Slot.mk slot_start (slot_start + duration)])
  else (suggestions, false)
termination_by MAX_SUGGESTION_POOL - suggestions.length
decreasing_by simp [MAX_SUGGESTION_POOL] at *; omega

/-- The `for start, end in busy_intervals` loop.  Returns the final cursor,
the suggestions, and whether the early `return` fired (in which case Python
returns the suggestions immediately and the cursor is irrelevant). -/
def busyLoop (window_end duration increment : Int) :
    List (Int × Int) → Int → List Slot → Int × List Slot × Bool
  | [], cursor, suggestions => (cursor, suggestions, false)
  | (s, e) :: rest, cursor, suggestions =>
    match (if cursor < s then
             busySegmentLoop duration increment (min s window_end) cursor suggestions
           else (suggestions, false)) with
    | (suggestions', true) => (cursor, suggestions', true)
    | (suggestions', false) =>
      if window_end ≤ max cursor e then (max cursor e, suggestions', false)
      else busyLoop window_end duration increment rest (max cursor e) suggestions'

/-- The trailing `while cursor + duration <= window_end and len < cap` loop. -/
def tailLoop (window_end duration increment : Int) (cursor : Int)
    (suggestions : List Slot) : List Slot :=
  if cursor + duration ≤ window_end then
    if suggestions.length < MAX_SUGGESTION_POOL then
      tailLoop window_end duration increment (cursor + increment)
        (suggestions ++ [Slot.mk cursor (cursor + duration)])
    else suggestions
  else suggestions
termination_by MAX_SUGGESTION_POOL - suggestions.length
decreasing_by simp [MAX_SUGGESTION_POOL] at *; omega

def generate_suggestions (busy_intervals : List (Int × Int))
    (window_start window_end duration increment : Int) : List Slot :=
  let r := busyLoop window_end duration increment busy_intervals window_start []
  if r.2.2 then r.2.1
  else tailLoop window_end duration increment r.1 r.2.1

/-- Every slot produced by the inner busy-segment loop is either carried over
from the accumulator or starts at/after the initial cursor, is duration-exact,
and ends by `bound`. -/
theorem busySegmentLoop_spec (duration increment bound : Int) (hinc : 0 < increment) :
    ∀ slot_start suggestions,
      ∀ x ∈ (busySegmentLoop duration increment bound slot_start suggestions).1,
        x ∈ suggestions
        ∨ (slot_start ≤ x.start ∧ x.stop = x.start + duration ∧ x.stop ≤ bound) := by
  intro slot_start suggestions
  induction slot_start, suggestions using busySegmentLoop.induct duration increment bound with
  | case1 slot_start suggestions hle hcap =>
    intro x hx
    rw [busySegmentLoop, if_pos hle, if_pos hcap] at hx
    rcases List.mem_append.mp hx with h | h
    · exact Or.inl h
    · simp only [List.mem_singleton] at h
      subst h
      exact Or.inr ⟨le_refl _, rfl, hle⟩
  | case2 slot_start suggestions hle hcap ih =>
    intro x hx
    rw [busySegmentLoop, if_pos hle, if_neg hcap] at hx
    rcases ih x hx with h | h
    · rcases List.mem_append.mp h with h' | h'
      · exact Or.inl h'
      · simp only [List.mem_singleton] at h'
        subst h'
        exact Or.inr ⟨le_refl _, rfl, hle⟩
    · exact Or.inr ⟨by omega, h.2.1, h.2.2⟩
  | case3 slot_start suggestions hle =>
    intro x hx
    rw [busySegmentLoop, if_neg hle] at hx
    exact Or.inl hx

/-- Slots appended by the trailing loop start at or after the entry cursor,
are duration-exact and end inside the window. -/
theorem tailLoop_spec (window_end duration increment : Int) (hinc : 0 < increment) :
    ∀ cursor suggestions,
      ∀ x ∈ tailLoop window_end duration increment cursor suggestions,
        x ∈ suggestions
        ∨ (cursor ≤ x.start ∧ x.stop = x.start + duration ∧ x.stop ≤ window_end) := by
  intro cursor suggestions
  induction cursor, suggestions using tailLoop.induct window_end duration increment with
  | case1 cursor suggestions hle hcap ih =>
    intro x hx
    rw [tailLoop, if_pos hle, if_pos hcap] at hx
    rcases ih x hx with h | h
    · rcases List.mem_append.mp h with h' | h'
      · exact Or.inl h'
      · simp only [List.mem_singleton] at h'
        subst h'
        exact Or.inr ⟨le_refl _, rfl, hle⟩
    · exact Or.inr ⟨by omega, h.2.1, h.2.2⟩
  | case2 cursor suggestions hle hcap =>
    intro x hx
    rw [tailLoop, if_pos hle, if_neg hcap] at hx
    exact Or.inl hx
  | case3 cursor suggestions hle =>
    intro x hx
    rw [tailLoop, if_neg hle] at hx
    exact Or.inl hx

/-- Invariant of the busy-interval loop: every emitted slot comes from the
accumulator or is duration-exact, starts at or after the entry cursor, ends
inside the window and is disjoint from every busy interval; the cursor never
moves backwards; and unless the pool cap fired, on exit either the window is
exhausted or the cursor has passed the end of every busy interval. -/
theorem busyLoop_spec (window_end duration increment : Int) (hinc : 0 < increment) :
    ∀ (bs : List (Int × Int)) (cursor : Int) (acc : List Slot),
      (∀ p ∈ bs, p.1 < p.2) →
      List.Pairwise (fun a b : Int × Int => a.2 < b.1) bs →
      (∀ x ∈ (busyLoop window_end duration increment bs cursor acc).2.1,
          x ∈ acc
          ∨ (cursor ≤ x.start ∧ x.stop = x.start + duration ∧ x.stop ≤ window_end
             ∧ ∀ p ∈ bs, x.stop ≤ p.1 ∨ p.2 ≤ x.start))
      ∧ cursor ≤ (busyLoop window_end duration increment bs cursor acc).1
      ∧ ((busyLoop window_end duration increment bs cursor acc).2.2 = false →
          window_end ≤ (busyLoop window_end duration increment bs cursor acc).1
          ∨ ∀ p ∈ bs, p.2 ≤ (busyLoop window_end duration increment bs cursor acc).1) := by
  intro bs
  induction bs with
  | nil =>
    intro cursor acc _ _
    refine ⟨fun x hx => Or.inl hx, le_refl _, fun _ => Or.inr ?_⟩
    intro p hp
    exact absurd hp (List.not_mem_nil p)
  | cons head rest ih =>
    obtain ⟨s, e⟩ := head
    intro cursor acc hwf hpw
    have hse : s < e := hwf (s, e) (by simp)
    have hwfr : ∀ p ∈ rest, p.1 < p.2 := fun p hp => hwf p (by simp [hp])
    rw [List.pairwise_cons] at hpw
    obtain ⟨hhead, hpwr⟩ := hpw
    -- properties of the segment step
    have hstep : ∀ x ∈ (if cursor < s then
          busySegmentLoop duration increment (min s window_end) cursor acc
        else (acc, false)).1,
        x ∈ acc ∨ (cursor ≤ x.start ∧ x.stop = x.start + duration ∧ x.stop ≤ min s window_end) := by
      by_cases hcs : cursor < s
      · rw [if_pos hcs]
        exact busySegmentLoop_spec duration increment (min s window_end) hinc cursor acc
      · rw [if_neg hcs]
        intro x hx
        exact Or.inl hx
    -- a new segment slot is disjoint from (s, e) and from everything in rest
    have hnew_disj : ∀ x : Slot, x.stop ≤ min s window_end →
        (x.stop ≤ s ∨ e ≤ x.start) ∧ ∀ p ∈ rest, x.stop ≤ p.1 ∨ p.2 ≤ x.start := by
      intro x hxb
      have hxs : x.stop ≤ s := le_trans hxb (min_le_left _ _)
      refine ⟨Or.inl hxs, fun p hp => Or.inl ?_⟩
      have : e < p.1 := hhead p hp
      omega
    rcases hmatch : (if cursor < s then
        busySegmentLoop duration increment (min s window_end) cursor acc
      else (acc, false)) with ⟨sugs', early⟩
    have hsugs : ∀ x ∈ sugs',
        x ∈ acc ∨ (cursor ≤ x.start ∧ x.stop = x.start + duration ∧ x.stop ≤ min s window_end) := by
      intro x hx
      exact hstep x (by rw [hmatch]; exact hx)
    cases early with
    | true =>
      rw [busyLoop, hmatch]
      refine ⟨?_, le_refl _, by simp⟩
      intro x hx
      rcases hsugs x hx with h | h
      · exact Or.inl h
      · obtain ⟨hd1, hd2, hd3⟩ := h
        obtain ⟨hdj1, hdj2⟩ := hnew_disj x hd3
        refine Or.inr ⟨hd1, hd2, le_trans hd3 (min_le_right _ _), ?_⟩
        intro p hp
        rcases List.mem_cons.mp hp with h' | h'
        · subst h'
          exact hdj1
        · exact hdj2 p h'
    | false =>
      simp only [busyLoop, hmatch]
      by_cases hbrk : window_end ≤ max cursor e
      · rw [if_pos hbrk]
        refine ⟨?_, le_max_left _ _, fun _ => Or.inl hbrk⟩
        intro x hx
        rcases hsugs x hx with h | h
        · exact Or.inl h
        · obtain ⟨hd1, hd2, hd3⟩ := h
          obtain ⟨hdj1, hdj2⟩ := hnew_disj x hd3
          refine Or.inr ⟨hd1, hd2, le_trans hd3 (min_le_right _ _), ?_⟩
          intro p hp
          rcases List.mem_cons.mp hp with h' | h'
          · subst h'
            exact hdj1
          · exact hdj2 p h'
      · rw [if_neg hbrk]
        obtain ⟨ihmem, ihcur, ihexit⟩ := ih (max cursor e) sugs' hwfr hpwr
        refine ⟨?_, le_trans (le_max_left _ _) ihcur, ?_⟩
        · intro x hx
          rcases ihmem x hx with h | h
          · rcases hsugs x h with h' | h'
            · exact Or.inl h'
            · obtain ⟨hd1, hd2, hd3⟩ := h'
              obtain ⟨hdj1, hdj2⟩ := hnew_disj x hd3
              refine Or.inr ⟨hd1, hd2, le_trans hd3 (min_le_right _ _), ?_⟩
              intro p hp
              rcases List.mem_cons.mp hp with h'' | h''
              · subst h''
                exact hdj1
              · exact hdj2 p h''
          · obtain ⟨hd1, hd2, hd3, hd4⟩ := h
            refine Or.inr ⟨le_trans (le_max_left _ _) hd1, hd2, hd3, ?_⟩
            intro p hp
            rcases List.mem_cons.mp hp with h'' | h''
            · subst h''
              exact Or.inr (le_trans (le_trans (le_max_right _ _) hd1) (le_refl _))
            · exact hd4 p h''
        · intro hfalse
          rcases ihexit hfalse with h | h
          · exact Or.inl h
          · refine Or.inr ?_
            intro p hp
            rcases List.mem_cons.mp hp with h'' | h''
            · subst h''
              exact le_trans (le_max_right _ _) ihcur
            · exact h p h''

/-- Claim C3: on a merged busy timeline (well-formed, sorted, pairwise
disjoint) with positive duration and increment and a non-degenerate window,
every slot emitted by `_generate_suggestions` is duration-exact, lies fully
inside `[window_start, window_end)`, and is disjoint from every busy interval;
and if the result is non-empty a valid slot exists (contrapositive of: when no
valid slot exists the result is empty). -/
theorem generate_suggestions_spec (busy : List (Int × Int)) (ws we d i : Int)
    (hwf : ∀ p ∈ busy, p.1 < p.2)
    (hpw : List.Pairwise (fun a b : Int × Int => a.2 < b.1) busy)
    (hd : 0 < d) (hi : 0 < i) (hwin : ws < we) :
    (∀ x ∈ generate_suggestions busy ws we d i,
        x.stop = x.start + d ∧ ws ≤ x.start ∧ x.stop ≤ we
        ∧ ∀ p ∈ busy, x.stop ≤ p.1 ∨ p.2 ≤ x.start)
    ∧ (generate_suggestions busy ws we d i ≠ [] →
        ∃ t : Int, ws ≤ t ∧ t + d ≤ we ∧ ∀ p ∈ busy, t + d ≤ p.1 ∨ p.2 ≤ t) := by
  obtain ⟨hmem, hcur, hexit⟩ := busyLoop_spec we d i hi busy ws [] hwf hpw
  have hall : ∀ x ∈ generate_suggestions busy ws we d i,
      x.stop = x.start + d ∧ ws ≤ x.start ∧ x.stop ≤ we
      ∧ ∀ p ∈ busy, x.stop ≤ p.1 ∨ p.2 ≤ x.start := by
    intro x hx
    unfold generate_suggestions at hx
    by_cases hearly : (busyLoop we d i busy ws []).2.2
    · rw [if_pos hearly] at hx
      rcases hmem x hx with h | h
      · exact absurd h (List.not_mem_nil x)
      · exact ⟨h.2.1, h.1, h.2.2.1, h.2.2.2⟩
    · rw [if_neg hearly] at hx
      rcases tailLoop_spec we d i hi (busyLoop we d i busy ws []).1
          (busyLoop we d i busy ws []).2.1 x hx with h | h
      · rcases hmem x h with h' | h'
        · exact absurd h' (List.not_mem_nil x)
        · exact ⟨h'.2.1, h'.1, h'.2.2.1, h'.2.2.2⟩
      · obtain ⟨ht1, ht2, ht3⟩ := h
        rcases hexit (by simpa using hearly) with hcase | hcase
        · -- cursor already past the window: impossible for an emitted slot
          exfalso
          have : we ≤ x.start := le_trans hcase ht1
          omega
        · refine ⟨ht2, le_trans hcur ht1, ht3, ?_⟩
          intro p hp
          exact Or.inr (le_trans (hcase p hp) ht1)
  refine ⟨hall, ?_⟩
  intro hne
  cases hgen : generate_suggestions busy ws we d i with
  | nil => exact absurd hgen hne
  | cons x rest =>
    obtain ⟨h1, h2, h3, h4⟩ := hall x (by rw [hgen]; simp)
    refine ⟨x.start, h2, by omega, ?_⟩
    intro p hp
    rcases h4 p hp with h | h
    · exact Or.inl (by omega)
    · exact Or.inr h

/-- Witness for C3 at a concrete input: busy timeline `[(10, 20)]`, window
`[0, 30)`, duration 10, increment 10. -/
theorem generate_suggestions_spec_witness :
    ((∀ p ∈ [((10 : Int), (20 : Int))], p.1 < p.2)
      ∧ List.Pairwise (fun a b : Int × Int => a.2 < b.1) [((10 : Int), (20 : Int))]
      ∧ (0 : Int) < 10 ∧ (0 : Int) < 30)
    ∧ ((∀ x ∈ generate_suggestions [((10 : Int), (20 : Int))] 0 30 10 10,
          x.stop = x.start + 10 ∧ 0 ≤ x.start ∧ x.stop ≤ 30
          ∧ ∀ p ∈ [((10 : Int), (20 : Int))], x.stop ≤ p.1 ∨ p.2 ≤ x.start)
      ∧ (generate_suggestions [((10 : Int), (20 : Int))] 0 30 10 10 ≠ [] →
          ∃ t : Int, 0 ≤ t ∧ t + 10 ≤ 30
            ∧ ∀ p ∈ [((10 : Int), (20 : Int))], t + 10 ≤ p.1 ∨ p.2 ≤ t)) :=
  ⟨⟨by decide, by decide, by decide, by decide⟩,
    generate_suggestions_spec [(10, 20)] 0 30 10 10 (by decide) (by decide)
      (by decide) (by decide) (by decide)⟩

/-! ## Poll model and service operations (backend/app/models.py, services.py)

`datetime` fields become `Int`; Python's `email.lower()` becomes `lowerStr`
(character-wise `Char.toLower`, adequate for ASCII emails).  Timestamps that
the poll logic never reads (`created_at`, `updated_at`) are omitted.  The
Mongo write-back in `add_vote`/`finalize_poll` persists exactly the returned
poll value, so the returned `Poll` is the post-state.
-/

def lowerStr (s : String) : String := ⟨s.data.map Char.toLower⟩

structure PollOption where
  id : String
  start_time : Int
  end_time : Int
  votes : Nat
deriving DecidableEq, Repr

structure PollVote where
  option_id : String
  voter_email : String
  voted_at : Int
deriving DecidableEq, Repr

structure Poll where
  meeting_id : String
  organizer_email : String
  options : List PollOption
  votes : List PollVote
  status : String
  deadline : Option Int
  winning_option_id : Option String
deriving DecidableEq, Repr

/-- `PollService.create_poll` (services.py lines 523-542): options arrive as
`{start_time, end_time}` dicts and get fresh ids (modelled as given id
strings) and a zero vote count; the vote list starts empty and the status
`open`. -/
def create_poll (meeting_id organizer_email : String)
    (options : List (String × Int × Int)) (deadline : Option Int) : Poll :=
  { meeting_id := meeting_id
    organizer_email := organizer_email
    options := options.map fun o => { id := o.1, start_time := o.2.1, end_time := o.2.2, votes := 0 }
    votes := []
    status := "open"
    deadline := deadline
    winning_option_id := none }

/-- `if normalized_deadline and datetime.now() >= normalized_deadline`. -/
def deadlinePassed (now : Int) (deadline : Option Int) : Bool :=
  match deadline with
  | none => false
  | some d => d ≤ now

/-- `PollService.add_vote` (services.py lines 553-581), given the stored poll
(`get_poll` succeeded).  Raised `ValueError`s become `.error`; note the code
never checks that `option_id` exists among the poll's options. -/
def add_vote (now : Int) (poll : Poll) (option_id voter_email : String) :
    Except String Poll :=
  if poll.status ≠ "open" then .error "Poll is closed"
  else if deadlinePassed now poll.deadline then .error "Poll deadline has passed"
  else
    let votes := (poll.votes.filter fun v => lowerStr v.voter_email ≠ lowerStr voter_email)
      ++ [{ option_id := option_id, voter_email := voter_email, voted_at := now }]
    let options := poll.options.map fun opt =>
      { opt with votes := (votes.filter fun v => v.option_id = opt.id).length }
    .ok { poll with votes := votes, options := options }

/-- Sort key of `finalize_poll`: `key=lambda opt: (-opt.votes, opt.start_time)`
ascending, i.e. more votes first, then earlier start. -/
def finalizeLE (a b : PollOption) : Bool :=
  decide (b.votes < a.votes) || (decide (a.votes = b.votes) && decide (a.start_time ≤ b.start_time))

/-- `PollService.finalize_poll` (services.py lines 583-607), given the stored
poll.  Already-closed polls are returned unchanged; with no explicit option the
first element of the stable sort by `(-votes, start_time)` wins. -/
def finalize_poll (poll : Poll) (option_id : Option String) : Except String Poll :=
  if poll.status = "closed" then .ok poll
  else
    match option_id with
    | some oid => .ok { poll with status := "closed", winning_option_id := some oid }
    | none =>
      match poll.options.mergeSort finalizeLE with
      | [] => .error "No options to finalize"
      | best :: _ => .ok { poll with status := "closed", winning_option_id := some best.id }

/-- The poll finalize endpoint `POST /api/polls/../finalize` (main.py lines
1358-1369): it calls `PollService.finalize_poll` (which persists the closed
poll) FIRST and only afterwards rejects callers other than the organizer.
Returns the stored poll state after the request together with the HTTP
outcome. -/
def finalize_endpoint (stored : Option Poll) (current_user_email : String)
    (option_id : Option String) : Option Poll × Except String Poll :=
  match stored with
  | none => (none, .error "Poll not found")
  | some poll =>
    match finalize_poll poll option_id with
    | .error e => (some poll, .error e)
    | .ok poll' =>
      if poll.organizer_email ≠ "" ∧ poll.organizer_email ≠ current_user_email then
        (some poll', .error "You can only finalize polls you created.")
      else (some poll', .ok poll')

/-- Claim C5: after a successful `add_vote`, the poll's vote list contains
exactly one vote whose voter identity matches case-insensitively, and that
vote is for the newly chosen option (last-write-wins, not accumulation). -/
theorem add_vote_last_write_wins (now : Int) (poll : Poll)
    (option_id voter_email : String) (poll' : Poll)
    (h : add_vote now poll option_id voter_email = .ok poll') :
    poll'.votes.filter (fun v => lowerStr v.voter_email = lowerStr voter_email)
      = [{ option_id := option_id, voter_email := voter_email, voted_at := now }] := by
  unfold add_vote at h
  split_ifs at h
  rw [Except.ok.injEq] at h
  subst h
  rw [List.filter_append]
  have h1 : (poll.votes.filter fun v =>
      lowerStr v.voter_email ≠ lowerStr voter_email).filter
        (fun v => lowerStr v.voter_email = lowerStr voter_email) = [] := by
    rw [List.filter_eq_nil_iff]
    intro a ha
    have := (List.mem_filter.mp ha).2
    simp only [decide_eq_true_eq] at this ⊢
    exact fun hh => this hh
  rw [h1]
  simp

/-- Concrete poll for the C5 witness: one existing vote by `V@x` (mixed case)
for option `a`. -/
def pollC5 : Poll :=
  Poll.mk "m" "org@x" [⟨"a", 0, 10, 1⟩, ⟨"b", 10, 20, 0⟩] [⟨"a", "V@x", 1⟩] "open" none none

/-- Result of `add_vote 2 pollC5 "b" "v@x"`: the old vote by the same voter is
replaced and the counts recomputed. -/
def pollC5' : Poll :=
  Poll.mk "m" "org@x" [⟨"a", 0, 10, 0⟩, ⟨"b", 10, 20, 1⟩] [⟨"b", "v@x", 2⟩] "open" none none

/-- Witness for C5: the voter re-votes (different letter case) and exactly the
new vote remains. -/
theorem add_vote_last_write_wins_witness :
    add_vote 2 pollC5 "b" "v@x" = .ok pollC5'
    ∧ pollC5'.votes.filter (fun v => lowerStr v.voter_email = lowerStr "v@x")
        = [{ option_id := "b", voter_email := "v@x", voted_at := 2 }] :=
  ⟨rfl, add_vote_last_write_wins 2 pollC5 "b" "v@x" pollC5' rfl⟩

/-- Transitivity of the finalize sort key. -/
theorem finalizeLE_trans (a b c : PollOption) :
    finalizeLE a b = true → finalizeLE b c = true → finalizeLE a c = true := by
  simp only [finalizeLE, Bool.or_eq_true, Bool.and_eq_true, decide_eq_true_eq]
  omega

/-- Totality of the finalize sort key. -/
theorem finalizeLE_total (a b : PollOption) :
    (finalizeLE a b || finalizeLE b a) = true := by
  simp only [finalizeLE, Bool.or_eq_true, Bool.and_eq_true, decide_eq_true_eq]
  omega

/-- Claim C6: finalizing an open poll with a non-empty option list and no
explicit option closes it on a winner that has the maximum vote count and,
among options tied at that count, the earliest start time. -/
theorem finalize_poll_majority (poll : Poll)
    (hopen : poll.status = "open") (hne : poll.options ≠ []) :
    ∃ w ∈ poll.options,
      finalize_poll poll none
        = .ok { poll with status := "closed", winning_option_id := some w.id }
      ∧ (∀ o ∈ poll.options, o.votes ≤ w.votes)
      ∧ (∀ o ∈ poll.options, o.votes = w.votes → w.start_time ≤ o.start_time) := by
  have hperm := List.mergeSort_perm poll.options finalizeLE
  have hsorted := List.sorted_mergeSort finalizeLE_trans finalizeLE_total poll.options
  cases hs : poll.options.mergeSort finalizeLE with
  | nil =>
    exfalso
    have := hperm.length_eq
    rw [hs] at this
    exact hne (List.length_eq_zero.mp this.symm)
  | cons best tail =>
    rw [hs] at hperm hsorted
    have hbest_mem : best ∈ poll.options := hperm.mem_iff.mp (by simp)
    have hbest_le : ∀ o ∈ poll.options, finalizeLE best o = true ∨ o = best := by
      intro o ho
      have : o ∈ best :: tail := hperm.mem_iff.mpr ho
      rcases List.mem_cons.mp this with h | h
      · exact Or.inr h
      · exact Or.inl ((List.pairwise_cons.mp hsorted).1 o h)
    refine ⟨best, hbest_mem, ?_, ?_, ?_⟩
    · have hnc : ¬ poll.status = "closed" := by
        rw [hopen]
        decide
      simp only [finalize_poll, if_neg hnc, hs]
    · intro o ho
      rcases hbest_le o ho with h | h
      · simp only [finalizeLE, Bool.or_eq_true, Bool.and_eq_true, decide_eq_true_eq] at h
        omega
      · rw [h]
    · intro o ho hvotes
      rcases hbest_le o ho with h | h
      · simp only [finalizeLE, Bool.or_eq_true, Bool.and_eq_true, decide_eq_true_eq] at h
        omega
      · rw [h]

/-- Witness for C6 at a concrete tie: options `a` (1 vote, start 50) and `b`
(1 vote, start 20); the winner must be the earlier-starting `b`. -/
theorem finalize_poll_majority_witness :
    ((Poll.mk "m" "org@x"
        [⟨"a", 50, 60, 1⟩, ⟨"b", 20, 30, 1⟩]
        [] "open" none none).status = "open"
      ∧ (Poll.mk "m" "org@x"
        [⟨"a", 50, 60, 1⟩, ⟨"b", 20, 30, 1⟩]
        [] "open" none none).options ≠ [])
    ∧ ∃ w ∈ (Poll.mk "m" "org@x"
        [⟨"a", 50, 60, 1⟩, ⟨"b", 20, 30, 1⟩]
        [] "open" none none).options,
      finalize_poll (Poll.mk "m" "org@x"
        [⟨"a", 50, 60, 1⟩, ⟨"b", 20, 30, 1⟩]
        [] "open" none none) none
        = .ok { (Poll.mk "m" "org@x"
            [⟨"a", 50, 60, 1⟩, ⟨"b", 20, 30, 1⟩]
            [] "open" none none) with status := "closed", winning_option_id := some w.id }
      ∧ (∀ o ∈ (Poll.mk "m" "org@x"
          [⟨"a", 50, 60, 1⟩, ⟨"b", 20, 30, 1⟩]
          [] "open" none none).options, o.votes ≤ w.votes)
      ∧ (∀ o ∈ (Poll.mk "m" "org@x"
          [⟨"a", 50, 60, 1⟩, ⟨"b", 20, 30, 1⟩]
          [] "open" none none).options, o.votes = w.votes → w.start_time ≤ o.start_time) :=
  ⟨⟨rfl, by decide⟩, finalize_poll_majority _ rfl (by decide)⟩

/-- Claim C1 (refuted by the code): `add_vote` accepts an `option_id` that is
not among the poll's options, after which the sum of the options' vote counts
(0) no longer equals the number of recorded votes (1).  The failing run: a
fresh poll with single option `a`, then a vote for the non-existent option
`b`. -/
theorem vote_sum_invariant_broken_by_unknown_option :
    ∃ p', add_vote 5 (create_poll "m" "org@x" [("a", 0, 10)] none) "b" "v@x" = .ok p'
      ∧ (p'.options.map PollOption.votes).sum = 0
      ∧ p'.votes.length = 1 := by
  refine ⟨_, rfl, ?_, ?_⟩ <;> rfl

/-- Claim C2 (refuted by the code): on an open, non-expired poll, casting a
vote for an unknown `option_id` does not fail with any error — `add_vote`
records the phantom vote and returns the updated poll. -/
theorem add_vote_unknown_option_not_rejected :
    ∃ p', add_vote 7 (create_poll "m2" "org@y" [("optA", 0, 30)] none) "missing" "voter@y"
        = .ok p'
      ∧ p'.votes = [{ option_id := "missing", voter_email := "voter@y", voted_at := 7 }] := by
  refine ⟨_, rfl, ?_⟩
  rfl

/-- Open poll used for the C4 counter-run: organizer `alice@x`. -/
def pollC4 : Poll := create_poll "m4" "alice@x" [("o1", 0, 30)] none

/-- Claim C4 (refuted by the code): when `bob@x` (not the organizer) requests
finalization, the endpoint does report an authorization error, but only after
`PollService.finalize_poll` has already closed the poll and set
`winning_option_id` in the store — the poll does not stay open. -/
theorem finalize_endpoint_mutates_before_auth_check :
    finalize_endpoint (some pollC4) "bob@x" (some "o1")
        = (some { pollC4 with status := "closed", winning_option_id := some "o1" },
           .error "You can only finalize polls you created.")
    ∧ { pollC4 with status := "closed", winning_option_id := some "o1" }.status ≠ "open" := by
  constructor
  · rfl
  · decide

/-! ## Slot prioritisation (`_prioritize_human_friendly_slots`, main.py 284-345)

The only feature of a slot the function reads is the local hour of its start
(`slot["start"].astimezone(tz).hour`), so the time-zone conversion is
abstracted as a function `hour : Int → Nat`.  `DAYPART_BUCKETS` is the fixed
constant `(morning, 6, 12), (afternoon, 12, 17), (evening, 17, 22)` and
`QUIET_HOURS = (6, 22)`, so the bucket dict becomes three explicit lists.
-/

def isQuietHour (h : Nat) : Bool := decide (6 ≤ h) && decide (h < 22)

/-- The placement loop `for slot in in_hours: ...` assigning each slot to the
first matching daypart bucket, with unmatched slots going to `leftovers`.
Returns `(morning, afternoon, evening, leftovers)`. -/
def placeBuckets (hour : Int → Nat) : List Slot → List Slot × List Slot × List Slot × List Slot
  | [] => ([], [], [], [])
  | s :: rest =>
    match placeBuckets hour rest with
    | (m, a, e, leftovers) =>
      if 6 ≤ hour s.start ∧ hour s.start < 12 then (s :: m, a, e, leftovers)
      else if 12 ≤ hour s.start ∧ hour s.start < 17 then (m, s :: a, e, leftovers)
      else if 17 ≤ hour s.start ∧ hour s.start < 22 then (m, a, s :: e, leftovers)
      else (m, a, e, s :: leftovers)

/-- `if bucket: prioritized.append(bucket.pop(0)); picked = True`.  Returns
the remaining bucket, the extended result and whether a slot was taken. -/
def popBucket (bucket prioritized : List Slot) : List Slot × List Slot × Bool :=
  match bucket with
  | [] => (bucket, prioritized, false)
  | s :: rest => (rest, prioritized ++ [s], true)

/-- The round-robin `while len(prioritized) < max_suggestions` loop.  Python
checks `len(prioritized) >= max_suggestions` immediately after each append and
breaks out of the whole loop; when no bucket yielded a slot it also breaks.
Returns the result together with the final bucket states (which the backfill
step below reads). -/
def codeRR (k : Nat) (m a e prioritized : List Slot) :
    List Slot × List Slot × List Slot × List Slot :=
  if prioritized.length < k then
    let pm := popBucket m prioritized
    if k ≤ pm.2.1.length then (pm.2.1, pm.1, a, e)
    else
      let pa := popBucket a pm.2.1
      if k ≤ pa.2.1.length then (pa.2.1, pm.1, pa.1, e)
      else
        let pe := popBucket e pa.2.1
        if k ≤ pe.2.1.length then (pe.2.1, pm.1, pa.1, pe.1)
        else if pm.2.2 || pa.2.2 || pe.2.2 then codeRR k pm.1 pa.1 pe.1 pe.2.1
        else (pe.2.1, pm.1, pa.1, pe.1)
  else (prioritized, m, a, e)
termination_by m.length + a.length + e.length
decreasing_by
  unfold_let pm pa pe at *
  rcases m with _ | ⟨m0, m'⟩ <;> rcases a with _ | ⟨a0, a'⟩ <;>
    rcases e with _ | ⟨e0, e'⟩ <;> simp_all [popBucket] <;> omega

/-- The backfill loop `for slot in remaining: if slot not in prioritized:
prioritized.append(slot); if len(prioritized) >= max_suggestions: break`. -/
def backfillLoop (max_suggestions : Nat) : List Slot → List Slot → List Slot
  | [], prioritized => prioritized
  | s :: rest, prioritized =>
    let prioritized' := if s ∈ prioritized then prioritized else prioritized ++ [s]
    if max_suggestions ≤ prioritized'.length then prioritized'
    else backfillLoop max_suggestions rest prioritized'

def prioritize_human_friendly_slots (hour : Int → Nat) (slots : List Slot)
    (max_suggestions : Nat) : List Slot :=
  if slots = [] then []
  else
    let in_hours := slots.filter fun s => isQuietHour (hour s.start)
    let out_of_hours := slots.filter fun s => !isQuietHour (hour s.start)
    if in_hours = [] then slots.take max_suggestions
    else
      match placeBuckets hour in_hours with
      | (m, a, e, leftovers) =>
        match codeRR max_suggestions m a e [] with
        | (prioritized, m', a', e') =>
          (if prioritized.length < max_suggestions then
            backfillLoop max_suggestions (m' ++ a' ++ e' ++ leftovers ++ out_of_hours) prioritized
          else prioritized).take max_suggestions

/-! ### Reference procedure from the specification (section 4.3)

`rrSeq` is the spec's round-robin draw run to bucket exhaustion (one slot per
daypart bucket per round, in the fixed morning/afternoon/evening order);
`.take k` realises "until `k` is reached".  The backfill tiers follow the
spec's words: remaining quiet-hour slots in original chronological order, then
out-of-quiet-hours slots in original chronological order, truncated at `k`. -/

def rrSeq (m a e : List Slot) : List Slot :=
  if m = [] ∧ a = [] ∧ e = [] then []
  else (m.take 1 ++ a.take 1 ++ e.take 1) ++ rrSeq m.tail a.tail e.tail
termination_by m.length + a.length + e.length
decreasing_by
  rcases m with _ | ⟨m0, m'⟩ <;> rcases a with _ | ⟨a0, a'⟩ <;>
    rcases e with _ | ⟨e0, e'⟩ <;> simp_all <;> omega

def specPrioritize (hour : Int → Nat) (k : Nat) (slots : List Slot) : List Slot :=
  let quiet := slots.filter fun s => isQuietHour (hour s.start)
  let nonQuiet := slots.filter fun s => !isQuietHour (hour s.start)
  let drawn := (rrSeq
      (quiet.filter fun s => decide (6 ≤ hour s.start) && decide (hour s.start < 12))
      (quiet.filter fun s => decide (12 ≤ hour s.start) && decide (hour s.start < 17))
      (quiet.filter fun s => decide (17 ≤ hour s.start) && decide (hour s.start < 22))).take k
  (drawn ++ (quiet.filter fun s => !decide (s ∈ drawn)) ++ nonQuiet).take k

/-! ## Poll tokens (backend/main.py lines 108-157)

A JWT is modelled as its payload paired with the secret it was signed with;
`jwt.decode` succeeds iff the secrets agree and the token is unexpired
(`jose` rejects tokens whose `exp` is not in the future).  Hours-based TTL
arithmetic is folded into a single `ttl` duration. -/

structure PollTokenPayload where
  poll_id : String
  email : String
  exp : Int
deriving DecidableEq, Repr

structure SignedPollToken where
  payload : PollTokenPayload
  secret : String
deriving DecidableEq, Repr

/-- `_poll_token_expiration`: default TTL from issue time, clamped to the
poll deadline when one is set. -/
def poll_token_expiration (now ttl : Int) (deadline : Option Int) : Int :=
  match deadline with
  | none => now + ttl
  | some d => min (now + ttl) d

def generate_poll_token (secret : String) (now ttl : Int) (poll_id email : String)
    (deadline : Option Int) : SignedPollToken :=
  { payload :=
      { poll_id := poll_id
        email := lowerStr email
        exp := poll_token_expiration now ttl deadline }
    secret := secret }

def jwt_decode (token : SignedPollToken) (secret : String) (now : Int) :
    Option PollTokenPayload :=
  if token.secret = secret ∧ now < token.payload.exp then some token.payload else none

/-- `verify_poll_token`: decode, require the token's `poll_id` to equal the
poll being accessed and a non-empty email, and return that email. -/
def verify_poll_token (secret : String) (now : Int) (poll_id : String)
    (token : SignedPollToken) : Option String :=
  match jwt_decode token secret now with
  | none => none
  | some payload =>
    if payload.poll_id ≠ poll_id then none
    else if payload.email = "" then none
    else some payload.email

/-- Claim C8: a generated poll token carries expiry
`min(issue_time + ttl, deadline)`; verification rejects any other poll id;
once the deadline has passed verification fails (the token does not outlive
its poll); and a successful verification can only yield the identity the
token was generated for. -/
theorem poll_token_scope_and_expiry (secret : String) (t0 ttl now : Int)
    (poll_id email : String) (d : Int) :
    (generate_poll_token secret t0 ttl poll_id email (some d)).payload.exp
        = min (t0 + ttl) d
    ∧ (∀ other_id, other_id ≠ poll_id →
        verify_poll_token secret now other_id
          (generate_poll_token secret t0 ttl poll_id email (some d)) = none)
    ∧ (d ≤ now →
        verify_poll_token secret now poll_id
          (generate_poll_token secret t0 ttl poll_id email (some d)) = none)
    ∧ (verify_poll_token secret now poll_id
          (generate_poll_token secret t0 ttl poll_id email (some d)) = none
       ∨ verify_poll_token secret now poll_id
          (generate_poll_token secret t0 ttl poll_id email (some d))
            = some (lowerStr email)) := by
  refine ⟨rfl, ?_, ?_, ?_⟩
  · intro other_id hne
    unfold verify_poll_token jwt_decode generate_poll_token poll_token_expiration
    split_ifs with h1
    · simp [Ne.symm hne]
    · rfl
  · intro hd
    unfold verify_poll_token jwt_decode generate_poll_token poll_token_expiration
    split_ifs with h1
    · exfalso
      simp at h1
      omega
    · rfl
  · unfold verify_poll_token jwt_decode generate_poll_token poll_token_expiration
    split_ifs with h1
    · by_cases he : lowerStr email = ""
      · left
        simp [he]
      · right
        simp [he]
    · left
      rfl

/-- Witness for C8 at concrete values: secret `s`, issued at 0 with TTL 10,
poll `p`, deadline 5, checked at time 20 against poll id `q` and after the
deadline. -/
theorem poll_token_scope_and_expiry_witness :
    (("q" : String) ≠ "p" ∧ (5 : Int) ≤ 20)
    ∧ verify_poll_token "s" 20 "q" (generate_poll_token "s" 0 10 "p" "E@x" (some 5)) = none
    ∧ verify_poll_token "s" 20 "p" (generate_poll_token "s" 0 10 "p" "E@x" (some 5)) = none :=
  ⟨⟨by decide, by decide⟩,
    (poll_token_scope_and_expiry "s" 0 10 20 "p" "E@x" 5).2.1 "q" (by decide),
    (poll_token_scope_and_expiry "s" 0 10 20 "p" "E@x" 5).2.2.1 (by decide)⟩

/-! ## The availability-suggestion endpoint (main.py lines 700-765) -/

/-- `/api/availability/suggest`: the validation block and computation
pipeline.  The per-participant calendar fetches are abstracted: `busy` is the
collected busy list (missing participants only shrink it).  The code validates
an empty participant list, `window_end > window_start` and
`duration_minutes > 0` — but never `slot_increment_minutes`. -/
def suggest_availability (hour : Int → Nat) (now : Int) (participants : List String)
    (busy : List (Int × Int))
    (duration_minutes window_start window_end slot_increment_minutes : Int)
    (max_suggestions : Nat) : Except String (List Slot) :=
  if participants = [] then .error "Participants are required"
  else if window_end ≤ window_start then .error "window_end must be after window_start"
  else if duration_minutes ≤ 0 then .error "duration_minutes must be positive"
  else
    .ok (prioritize_human_friendly_slots hour
      ((generate_suggestions (merge_intervals busy)
          window_start window_end duration_minutes slot_increment_minutes).filter
        fun s => now < s.stop)
      max_suggestions)

/-- Claim C9 (refuted by the code): a suggestion request with
`slot_increment_minutes = 0` is not rejected — validation passes and the
request succeeds (here returning no slots only because the 30-minute duration
does not fit the 10-minute window). -/
theorem suggest_availability_accepts_nonpositive_increment :
    suggest_availability (fun t => t.toNat % 24) 0 ["a@x"] [] 30 0 10 0 5 = .ok [] := by
  simp [suggest_availability, merge_intervals, sortIntervals, generate_suggestions,
    busyLoop, tailLoop, prioritize_human_friendly_slots]

/-! ### Lemmas relating the imperative prioritiser to the reference procedure -/

theorem popBucket_eq (b p : List Slot) :
    popBucket b p = (b.tail, p ++ b.take 1, !b.isEmpty) := by
  cases b <;> simp [popBucket]

theorem rrSeq_nil : rrSeq [] [] [] = [] := by
  rw [rrSeq]
  simp

/-- Membership in the full round-robin sequence is membership in some bucket. -/
theorem rrSeq_mem (x : Slot) :
    ∀ (m a e : List Slot), x ∈ rrSeq m a e ↔ x ∈ m ∨ x ∈ a ∨ x ∈ e := by
  intro m a e
  induction m, a, e using rrSeq.induct with
  | case1 m a e h =>
    obtain ⟨hm, ha, he⟩ := h
    subst hm; subst ha; subst he
    simp [rrSeq_nil]
  | case2 m a e h ih =>
    rw [rrSeq, if_neg h]
    rcases m with _ | ⟨m0, m'⟩ <;> rcases a with _ | ⟨a0, a'⟩ <;>
      rcases e with _ | ⟨e0, e'⟩ <;> simp_all [List.mem_append] <;> tauto

/-- The first-match placement loop equals four independent filters: the three
daypart ranges partition the quiet-hours band, and anything outside it (never
produced from `in_hours`) would land in `leftovers`. -/
theorem placeBuckets_eq (hour : Int → Nat) (l : List Slot) :
    placeBuckets hour l =
      (l.filter fun s => decide (6 ≤ hour s.start) && decide (hour s.start < 12),
       l.filter fun s => decide (12 ≤ hour s.start) && decide (hour s.start < 17),
       l.filter fun s => decide (17 ≤ hour s.start) && decide (hour s.start < 22),
       l.filter fun s => !isQuietHour (hour s.start)) := by
  induction l with
  | nil => rfl
  | cons s rest ih =>
    rcases hpb : placeBuckets hour rest with ⟨m, a, e, lo⟩
    rw [hpb] at ih
    simp only [Prod.mk.injEq] at ih
    obtain ⟨ih1, ih2, ih3, ih4⟩ := ih
    simp only [placeBuckets, hpb]
    split_ifs with h1 h2 h3 <;>
      simp only [Prod.mk.injEq] <;>
      refine ⟨?_, ?_, ?_, ?_⟩ <;>
      simp only [List.filter_cons] <;>
      first
      | (rw [if_pos (by simp only [Bool.and_eq_true, decide_eq_true_eq]; omega)]
         simp [ih1, ih2, ih3, ih4])
      | (rw [if_neg (by simp only [Bool.and_eq_true, decide_eq_true_eq]; omega)]
         simp [ih1, ih2, ih3, ih4])
      | (rw [if_pos (by simp only [isQuietHour, Bool.not_eq_true', Bool.and_eq_false_iff,
            decide_eq_false_iff_not]; omega)]
         simp [ih1, ih2, ih3, ih4])
      | (rw [if_neg (by simp only [isQuietHour, Bool.not_eq_eq_eq_not, Bool.not_true,
            Bool.and_eq_false_iff, decide_eq_false_iff_not]; omega)]
         simp [ih1, ih2, ih3, ih4])

theorem rrSeq_not_all_nil (m a e : List Slot) (h : ¬(m = [] ∧ a = [] ∧ e = [])) :
    rrSeq m a e = (m.take 1 ++ a.take 1 ++ e.take 1) ++ rrSeq m.tail a.tail e.tail := by
  rw [rrSeq, if_neg h]

/-- The imperative round-robin loop produces exactly the first
`k - len(prioritized)` elements of the full round-robin sequence, appended to
what was already selected. -/
theorem codeRR_fst (k : Nat) (m a e p : List Slot) :
    (codeRR k m a e p).1 = p ++ (rrSeq m a e).take (k - p.length) := by
  induction m, a, e, p using codeRR.induct k with
  | case1 m a e p hp pm h1 =>
    unfold pm at h1
    simp only [popBucket_eq] at h1
    rw [codeRR, if_pos hp]
    simp only [popBucket_eq, if_pos h1]
    rcases m with _ | ⟨m0, m'⟩
    · exfalso
      simp at h1
      omega
    · have hk : k - p.length = 1 := by simp at h1; omega
      rw [rrSeq_not_all_nil _ _ _ (by simp), hk]
      simp
  | case2 m a e p hp pm h1 pa h2 =>
    unfold pa at h2
    unfold pm at h1 h2
    simp only [popBucket_eq] at h1 h2
    rw [codeRR, if_pos hp]
    simp only [popBucket_eq, if_neg h1, if_pos h2]
    rcases a with _ | ⟨a0, a'⟩
    · exfalso
      simp at h1 h2
      omega
    · rw [rrSeq_not_all_nil _ _ _ (by simp)]
      rcases m with _ | ⟨m0, m'⟩
      · have hk : k - p.length = 1 := by simp at h1 h2; omega
        rw [hk]
        simp
      · have hk : k - p.length = 2 := by simp at h1 h2; omega
        rw [hk]
        simp [List.take_succ_cons]
  | case3 m a e p hp pm h1 pa h2 pe h3 =>
    unfold pe at h3
    unfold pa at h2 h3
    unfold pm at h1 h2 h3
    simp only [popBucket_eq] at h1 h2 h3
    rw [codeRR, if_pos hp]
    simp only [popBucket_eq, if_neg h1, if_neg h2, if_pos h3]
    rcases e with _ | ⟨e0, e'⟩
    · exfalso
      simp at h2 h3
      omega
    · rw [rrSeq_not_all_nil _ _ _ (by simp)]
      rcases m with _ | ⟨m0, m'⟩ <;> rcases a with _ | ⟨a0, a'⟩
      · have hk : k - p.length = 1 := by simp at h1 h2 h3; omega
        rw [hk]
        simp
      · have hk : k - p.length = 2 := by simp at h1 h2 h3; omega
        rw [hk]
        simp [List.take_succ_cons]
      · have hk : k - p.length = 2 := by simp at h1 h2 h3; omega
        rw [hk]
        simp [List.take_succ_cons]
      · have hk : k - p.length = 3 := by simp at h1 h2 h3; omega
        rw [hk]
        simp [List.take_succ_cons]
  | case4 m a e p hp pm h1 pa h2 pe h3 hpick ih =>
    unfold pe at h3 hpick ih
    unfold pa at h2 h3 hpick ih
    unfold pm at h1 h2 h3 hpick ih
    simp only [popBucket_eq] at h1 h2 h3 hpick ih
    rw [codeRR, if_pos hp]
    simp only [popBucket_eq, if_neg h1, if_neg h2, if_neg h3, if_pos hpick]
    rw [ih]
    have hne : ¬(m = [] ∧ a = [] ∧ e = []) := by
      rcases m <;> rcases a <;> rcases e <;> simp_all
    rw [rrSeq_not_all_nil _ _ _ hne, List.take_append_eq_append_take]
    have hlen : (m.take 1 ++ a.take 1 ++ e.take 1).length ≤ k - p.length := by
      simp only [List.length_append, List.length_take] at h3 ⊢
      omega
    rw [List.take_of_length_le hlen]
    have harith : k - p.length - (m.take 1 ++ a.take 1 ++ e.take 1).length
        = k - (((p ++ m.take 1) ++ a.take 1) ++ e.take 1).length := by
      simp only [List.length_append]
      omega
    rw [harith]
    simp [List.append_assoc]
  | case5 m a e p hp pm h1 pa h2 pe h3 hpick =>
    unfold pe at h3 hpick
    unfold pa at h2 h3 hpick
    unfold pm at h1 h2 h3 hpick
    simp only [popBucket_eq] at h1 h2 h3 hpick
    have hm : m = [] := by rcases m <;> simp_all
    have ha : a = [] := by rcases a <;> simp_all
    have he : e = [] := by rcases e <;> simp_all
    subst hm; subst ha; subst he
    rw [codeRR, if_pos hp]
    simp [popBucket_eq, rrSeq_nil]
  | case6 m a e p hp =>
    rw [codeRR, if_neg hp]
    have hk : k - p.length = 0 := by omega
    simp [hk]

/-- If the round-robin loop stops short of `k` results, it did so because all
three buckets were exhausted. -/
theorem codeRR_buckets_exhausted (k : Nat) (m a e p : List Slot) :
    (codeRR k m a e p).1.length < k →
      (codeRR k m a e p).2.1 = [] ∧ (codeRR k m a e p).2.2.1 = []
        ∧ (codeRR k m a e p).2.2.2 = [] := by
  induction m, a, e, p using codeRR.induct k with
  | case1 m a e p hp pm h1 =>
    unfold pm at h1
    simp only [popBucket_eq] at h1
    rw [codeRR, if_pos hp]
    simp only [popBucket_eq, if_pos h1]
    intro hlt
    omega
  | case2 m a e p hp pm h1 pa h2 =>
    unfold pa at h2
    unfold pm at h1 h2
    simp only [popBucket_eq] at h1 h2
    rw [codeRR, if_pos hp]
    simp only [popBucket_eq, if_neg h1, if_pos h2]
    intro hlt
    omega
  | case3 m a e p hp pm h1 pa h2 pe h3 =>
    unfold pe at h3
    unfold pa at h2 h3
    unfold pm at h1 h2 h3
    simp only [popBucket_eq] at h1 h2 h3
    rw [codeRR, if_pos hp]
    simp only [popBucket_eq, if_neg h1, if_neg h2, if_pos h3]
    intro hlt
    omega
  | case4 m a e p hp pm h1 pa h2 pe h3 hpick ih =>
    unfold pe at h3 hpick ih
    unfold pa at h2 h3 hpick ih
    unfold pm at h1 h2 h3 hpick ih
    simp only [popBucket_eq] at h1 h2 h3 hpick ih
    rw [codeRR, if_pos hp]
    simp only [popBucket_eq, if_neg h1, if_neg h2, if_neg h3, if_pos hpick]
    exact ih
  | case5 m a e p hp pm h1 pa h2 pe h3 hpick =>
    unfold pe at h3 hpick
    unfold pa at h2 h3 hpick
    unfold pm at h1 h2 h3 hpick
    simp only [popBucket_eq] at h1 h2 h3 hpick
    have hm : m = [] := by rcases m <;> simp_all
    have ha : a = [] := by rcases a <;> simp_all
    have he : e = [] := by rcases e <;> simp_all
    subst hm; subst ha; subst he
    rw [codeRR, if_pos hp]
    simp [popBucket_eq]
  | case6 m a e p hp =>
    rw [codeRR, if_neg hp]
    intro hlt
    exact absurd hlt hp

/-- On duplicate-free backfill input disjoint from the current result, the
membership check never fires and the backfill loop is a plain truncated
append. -/
theorem backfillLoop_eq (k : Nat) :
    ∀ (rem p : List Slot), rem.Nodup → (∀ x ∈ rem, x ∉ p) → p.length < k →
      backfillLoop k rem p = p ++ rem.take (k - p.length) := by
  intro rem
  induction rem with
  | nil =>
    intro p _ _ _
    simp [backfillLoop]
  | cons s rest ih =>
    intro p hnd hdisj hlt
    have hs : s ∉ p := hdisj s (by simp)
    rw [backfillLoop]
    simp only [if_neg hs]
    by_cases hfull : k ≤ (p ++ [s]).length
    · rw [if_pos hfull]
      have hk : k - p.length = 1 := by simp at hfull; omega
      rw [hk]
      simp
    · rw [if_neg hfull]
      rw [ih (p ++ [s]) (List.Nodup.of_cons hnd) ?_ ?_]
      · have hk : k - p.length = (k - (p ++ [s]).length) + 1 := by simp at hfull ⊢; omega
        rw [hk]
        simp [List.take_succ_cons]
      · intro x hx
        simp only [List.mem_append, List.mem_singleton]
        rintro (h | h)
        · exact hdisj x (by simp [hx]) h
        · subst h
          exact (List.nodup_cons.mp hnd).1 hx
      · simp at hfull ⊢
        omega

/-- Claim C10 (amended): on duplicate-free candidate slot lists the
prioritiser equals the specification's reference procedure — round-robin one
slot per daypart bucket per round in the fixed order until `k` or exhaustion,
then backfill with remaining quiet-hour slots and then out-of-quiet-hours
slots in original order. -/
theorem prioritize_matches_spec_on_nodup (hour : Int → Nat) (slots : List Slot)
    (k : Nat) (hnd : slots.Nodup) :
    prioritize_human_friendly_slots hour slots k = specPrioritize hour k slots := by
  by_cases hempty : slots = []
  · subst hempty
    simp [prioritize_human_friendly_slots, specPrioritize, rrSeq_nil]
  · simp only [prioritize_human_friendly_slots, specPrioritize]
    rw [if_neg hempty]
    by_cases hq : slots.filter (fun s => isQuietHour (hour s.start)) = []
    · rw [if_pos hq, hq]
      simp only [List.filter_nil, rrSeq_nil, List.take_nil, List.nil_append]
      have hall : slots.filter (fun s => !isQuietHour (hour s.start)) = slots := by
        rw [List.filter_eq_self]
        intro a ha
        have := List.filter_eq_nil_iff.mp hq a ha
        simpa using this
      rw [hall]
    · rw [if_neg hq]
      rw [placeBuckets_eq]
      simp only []
      rcases hcr : codeRR k
          ((slots.filter fun s => isQuietHour (hour s.start)).filter
            fun s => decide (6 ≤ hour s.start) && decide (hour s.start < 12))
          ((slots.filter fun s => isQuietHour (hour s.start)).filter
            fun s => decide (12 ≤ hour s.start) && decide (hour s.start < 17))
          ((slots.filter fun s => isQuietHour (hour s.start)).filter
            fun s => decide (17 ≤ hour s.start) && decide (hour s.start < 22))
          [] with ⟨prio, m', a', e'⟩
      have hprio : prio = (rrSeq
          ((slots.filter fun s => isQuietHour (hour s.start)).filter
            fun s => decide (6 ≤ hour s.start) && decide (hour s.start < 12))
          ((slots.filter fun s => isQuietHour (hour s.start)).filter
            fun s => decide (12 ≤ hour s.start) && decide (hour s.start < 17))
          ((slots.filter fun s => isQuietHour (hour s.start)).filter
            fun s => decide (17 ≤ hour s.start) && decide (hour s.start < 22))).take k := by
        have := codeRR_fst k
          ((slots.filter fun s => isQuietHour (hour s.start)).filter
            fun s => decide (6 ≤ hour s.start) && decide (hour s.start < 12))
          ((slots.filter fun s => isQuietHour (hour s.start)).filter
            fun s => decide (12 ≤ hour s.start) && decide (hour s.start < 17))
          ((slots.filter fun s => isQuietHour (hour s.start)).filter
            fun s => decide (17 ≤ hour s.start) && decide (hour s.start < 22))
          []
        rw [hcr] at this
        simpa using this
      have hlo : ((slots.filter fun s => isQuietHour (hour s.start)).filter
          fun s => !isQuietHour (hour s.start)) = [] := by
        rw [List.filter_eq_nil_iff]
        intro a ha
        have := (List.mem_filter.mp ha).2
        simp_all
      rw [hcr, hlo]
      simp only []
      set Q := slots.filter (fun s => isQuietHour (hour s.start)) with hQ
      set NQ := slots.filter (fun s => !isQuietHour (hour s.start)) with hNQ
      set M := Q.filter (fun s => decide (6 ≤ hour s.start) && decide (hour s.start < 12)) with hM
      set A := Q.filter (fun s => decide (12 ≤ hour s.start) && decide (hour s.start < 17)) with hA
      set E := Q.filter (fun s => decide (17 ≤ hour s.start) && decide (hour s.start < 22)) with hE
      set R := rrSeq M A E with hR
      have hQmem : ∀ x ∈ Q, x ∈ M ∨ x ∈ A ∨ x ∈ E := by
        intro x hx
        have hqx : isQuietHour (hour x.start) = true := (List.mem_filter.mp hx).2
        simp only [isQuietHour, Bool.and_eq_true, decide_eq_true_eq] at hqx
        by_cases h12 : hour x.start < 12
        · refine Or.inl (List.mem_filter.mpr ⟨hx, ?_⟩)
          simp only [Bool.and_eq_true, decide_eq_true_eq]
          omega
        · by_cases h17 : hour x.start < 17
          · refine Or.inr (Or.inl (List.mem_filter.mpr ⟨hx, ?_⟩))
            simp only [Bool.and_eq_true, decide_eq_true_eq]
            omega
          · refine Or.inr (Or.inr (List.mem_filter.mpr ⟨hx, ?_⟩))
            simp only [Bool.and_eq_true, decide_eq_true_eq]
            omega
      have hsubQ : ∀ x ∈ R, x ∈ Q := by
        intro x hx
        rcases (rrSeq_mem x M A E).mp (hR ▸ hx) with h | h | h
        · exact (List.mem_filter.mp h).1
        · exact (List.mem_filter.mp h).1
        · exact (List.mem_filter.mp h).1
      by_cases hfull : prio.length < k
      · rw [if_pos hfull]
        obtain ⟨hm', ha', he'⟩ := by
          have := codeRR_buckets_exhausted k M A E []
          rw [hcr] at this
          exact this (by simpa using hfull)
        subst hm'; subst ha'; subst he'
        have hRlt : R.length < k := by
          have := congrArg List.length hprio
          simp only [List.length_take] at this
          omega
        have htake : R.take k = R := List.take_of_length_le (le_of_lt hRlt)
        have hprioR : prio = R := by rw [hprio]; exact htake
        have hRQ : Q.filter (fun s => !decide (s ∈ R.take k)) = [] := by
          rw [List.filter_eq_nil_iff]
          intro x hx
          have hxR : x ∈ R.take k := by
            rw [htake, hR]
            rcases hQmem x hx with h | h | h
            · exact (rrSeq_mem x M A E).mpr (Or.inl h)
            · exact (rrSeq_mem x M A E).mpr (Or.inr (Or.inl h))
            · exact (rrSeq_mem x M A E).mpr (Or.inr (Or.inr h))
          simp [hxR]
        rw [hRQ]
        have hbackfill : backfillLoop k ([] ++ [] ++ [] ++ [] ++ NQ) prio
            = prio ++ NQ.take (k - prio.length) := by
          simp only [List.nil_append]
          refine backfillLoop_eq k NQ prio (List.Nodup.filter _ hnd) ?_ hfull
          intro x hx hxp
          have hxQ : x ∈ Q := hsubQ x (hprioR ▸ hxp)
          have h1 : isQuietHour (hour x.start) = true := (List.mem_filter.mp hxQ).2
          have h2 : (!isQuietHour (hour x.start)) = true := (List.mem_filter.mp hx).2
          simp [h1] at h2
        rw [hbackfill, htake, hprioR]
        rw [List.take_append_eq_append_take, List.take_append_eq_append_take,
          List.take_take]
        simp [htake]
      · rw [if_neg hfull]
        have hlen : k ≤ prio.length := le_of_not_lt hfull
        rw [hprio]
        have hlenTake : (List.take k R).length = k := by
          have := congrArg List.length hprio
          simp only [List.length_take] at this ⊢
          omega
        rw [List.take_append_of_le_length (by simp [List.length_append, hlenTake]),
          List.take_append_of_le_length (by simp [hlenTake])]

/-- Claim C10 as stated is refuted: with a duplicated out-of-quiet-hours slot
(start hour 23) the code's backfill membership check drops the second copy,
while the reference procedure keeps both.  Inputs: slots
`[9:00-10:00, 23:00-24:00, 23:00-24:00]` (hours read directly from the
timestamp), `k = 3`. -/
theorem prioritize_dedupe_counterexample :
    prioritize_human_friendly_slots (fun t => t.toNat % 24)
        [⟨9, 10⟩, ⟨23, 24⟩, ⟨23, 24⟩] 3
      ≠ specPrioritize (fun t => t.toNat % 24) 3 [⟨9, 10⟩, ⟨23, 24⟩, ⟨23, 24⟩] := by
  have hcode : prioritize_human_friendly_slots (fun t => t.toNat % 24)
      [⟨9, 10⟩, ⟨23, 24⟩, ⟨23, 24⟩] 3 = [⟨9, 10⟩, ⟨23, 24⟩] := by
    simp [prioritize_human_friendly_slots, isQuietHour, placeBuckets, codeRR, popBucket,
      backfillLoop, List.filter]
  have hspec : specPrioritize (fun t => t.toNat % 24) 3 [⟨9, 10⟩, ⟨23, 24⟩, ⟨23, 24⟩]
      = [⟨9, 10⟩, ⟨23, 24⟩, ⟨23, 24⟩] := by
    simp [specPrioritize, isQuietHour, rrSeq, List.filter]
  rw [hcode, hspec]
  decide

/-- Witness for the amended C10 at a concrete duplicate-free slot list. -/
theorem prioritize_matches_spec_on_nodup_witness :
    ([⟨9, 10⟩, ⟨13, 14⟩, ⟨23, 24⟩] : List Slot).Nodup
    ∧ prioritize_human_friendly_slots (fun t => t.toNat % 24)
        [⟨9, 10⟩, ⟨13, 14⟩, ⟨23, 24⟩] 2
      = specPrioritize (fun t => t.toNat % 24) 2 [⟨9, 10⟩, ⟨13, 14⟩, ⟨23, 24⟩] :=
  ⟨by decide, prioritize_matches_spec_on_nodup (fun t => t.toNat % 24)
    [⟨9, 10⟩, ⟨13, 14⟩, ⟨23, 24⟩] 2 (by decide)⟩
